import Mathlib

/-!
Verification of the confirmed-native extra deposit scan worker.

A shallow embedding, in Lean 4, of `src/confirmed-native-extra-solution-2.ts`:
the worker that re-scans an order's deposit address on Etherscan for missed
native-asset deposits, verifies each candidate transaction against the node,
and credits the matching order through the idempotent credit sink.

Conventions of the embedding:
* JavaScript values crossing the explorer boundary are modelled by a `Json`
  inductive; the zod schema `accountTxListResultSchema` becomes an explicit
  decode function.
* Decimal-string arithmetic (the `ns` bignumber wrapper and
  `ethers.utils.formatEther`) is modelled by exact numeral printing/parsing
  over `Nat` (wei amounts are unsigned).
* Timestamps: `order.createdAt.getTime()` is a millisecond count (`Nat`);
  `block.timestamp` is a second count, multiplied by 1000 where the source
  builds `new Date(block.timestamp * 1000)`.
* Thrown JS exceptions are `Except.error` values; the per-candidate `pMap`
  is modelled as a sequential left fold that stops at the first thrown
  error, which determinizes the unbounded concurrent fan-out of the source.
* External collaborators (node provider, order repository, credit sink,
  task queue) are capabilities in an `Env` record; the credit sink's
  at-most-once-per-unique-id contract is modelled from the spec.
-/

namespace EthereumWorker

/-- A JavaScript/JSON value as seen by the zod schema at the explorer
boundary. -/
inductive Json where
  | null : Json
  | bool (b : Bool) : Json
  | num (n : Int) : Json
  | str (s : String) : Json
  | arr (elems : List Json) : Json
  | obj (fields : List (String × Json)) : Json

/-- One record of the expected explorer page shape:
`{ hash: string, from: string, to: string, value: string }`
(the shape demanded by `accountTxListResultSchema`). -/
structure RawTxSummary where
  hash : String
  fromAddr : String
  toAddr : String
  value : String
deriving DecidableEq, Repr

/-- Look up a required string field of a zod object schema: the key must be
present and its value must be a string. -/
def getStringField (fields : List (String × Json)) (key : String) :
    Except String String :=
  match fields.lookup key with
  | some (Json.str s) => Except.ok s
  | some _ => Except.error ("field is not a string: " ++ key)
  | none => Except.error ("missing field: " ++ key)

/-- Decode one element of the transaction-list page, as
`z.object({ hash: z.string(), from: z.string(), to: z.string(),
value: z.string() })` does: each of the four keys must be present and hold a
string; extra keys are ignored. -/
def parseTxSummary (j : Json) : Except String RawTxSummary :=
  match j with
  | Json.obj fields => do
      let hash ← getStringField fields "hash"
      let fromAddr ← getStringField fields "from"
      let toAddr ← getStringField fields "to"
      let value ← getStringField fields "value"
      Except.ok ⟨hash, fromAddr, toAddr, value⟩
  | _ => Except.error "element is not an object"

/-- Decode a list of elements in order, failing at the first bad element. -/
def parseTxSummaries (elems : List Json) : Except String (List RawTxSummary) :=
  match elems with
  | [] => Except.ok []
  | j :: rest => do
      let s ← parseTxSummary j
      let ss ← parseTxSummaries rest
      Except.ok (s :: ss)

/-- The model of `accountTxListResultSchema.parse`: the input must be an
array, each element an object with string fields `hash`, `from`, `to`,
`value`. -/
def accountTxListResultSchema (j : Json) : Except String (List RawTxSummary) :=
  match j with
  | Json.arr elems => parseTxSummaries elems
  | _ => Except.error "expected array"

/-- An axios response as the `.then(res => ...)` callback receives it: the
HTTP body sits in the `data` field, alongside status and metadata fields.
As a JavaScript value the response itself is a plain object, never an
array. -/
structure AxiosResponse where
  status : Int
  statusText : String
  data : Json

/-- The axios response object, viewed as the JavaScript value that
`accountTxListResultSchema.parse` actually receives in
`.then(res => accountTxListResultSchema.parse(res))`. -/
def axiosResponseToJson (r : AxiosResponse) : Json :=
  Json.obj [("data", r.data), ("status", Json.num r.status),
    ("statusText", Json.str r.statusText),
    ("headers", Json.obj []), ("config", Json.obj [])]

/-- Failure modes of the explorer client call: a transport/HTTP failure
raised by axios, or a zod schema failure raised by `.parse`. -/
inductive ExplorerErr where
  | fetchError (msg : String) : ExplorerErr
  | schemaError (msg : String) : ExplorerErr
deriving DecidableEq, Repr

/-- The model of `getEtherScanTxListForAddress`, applied to the outcome of
the `axios.get` call (network failure or a response object): on a response,
the source parses the whole response object `res` — not its body
`res.data` — with `accountTxListResultSchema`. -/
def getEtherScanTxListForAddress (fetched : Except String AxiosResponse) :
    Except ExplorerErr (List RawTxSummary) :=
  match fetched with
  | Except.error msg => Except.error (ExplorerErr.fetchError msg)
  | Except.ok res =>
      match accountTxListResultSchema (axiosResponseToJson res) with
      | Except.error msg => Except.error (ExplorerErr.schemaError msg)
      | Except.ok txList => Except.ok txList

/-! ## Exact decimal-string arithmetic

The source computes wei amounts with `ns` (a bignumber.js wrapper doing
exact math on decimal strings) and renders them with
`ethers.utils.formatEther`.  We model decimal numerals by exact printing
and parsing of `Nat` (Ethereum wei quantities are unsigned). -/

/-- The decimal digits of `n`, most significant first (`[0]` for zero). -/
def natDigits (n : Nat) : List Nat :=
  if _h : n < 10 then [n]
  else natDigits (n / 10) ++ [n % 10]
termination_by n
decreasing_by
  exact Nat.div_lt_self (by omega) (by omega)

/-- The ASCII digit character for a digit value. -/
def natDigitChar (d : Nat) : Char := Char.ofNat (48 + d)

/-- Render a `Nat` as its decimal numeral (the model of
`BigNumber.toString()` / `Nat` pretty printing of wei amounts). -/
def toDecStr (n : Nat) : String :=
  ⟨(natDigits n).map natDigitChar⟩

/-- Numeric value of an ASCII digit character. -/
def charToDigit (c : Char) : Nat := c.toNat - 48

/-- Parse a decimal numeral (the model of bignumber.js reading a decimal
string; only applied to strings produced by `toDecStr`). -/
def parseDec (s : String) : Nat :=
  s.data.foldl (fun acc c => acc * 10 + charToDigit c) 0

/-- Modelled from the spec: `ns.sum` of the `@sideshift/shared` bignumber
wrapper — exact addition of decimal strings. -/
def nsSum (a b : String) : String := toDecStr (parseDec a + parseDec b)

/-- Modelled from the spec: `ns.times` of the `@sideshift/shared` bignumber
wrapper — exact multiplication of decimal strings. -/
def nsTimes (a b : String) : String := toDecStr (parseDec a * parseDec b)

/-- Strip trailing zero digits of a fractional expansion, keeping at least
one digit (so `0` renders as `"0"`, as `formatEther` keeps one decimal). -/
def trimTrailingZeros (l : List Nat) : List Nat :=
  match (l.reverse.dropWhile (fun d => d == 0)).reverse with
  | [] => [0]
  | l1 => l1

/-- The model of `ethers.utils.formatEther` on a wei amount: integer ether part, a dot,
then the 18-digit zero-padded fractional part with trailing zeros trimmed
(at least one fractional digit always remains). -/
def formatEther (wei : Nat) : String :=
  let fracDigits := natDigits (wei % 10 ^ 18)
  let padded := List.replicate (18 - fracDigits.length) 0 ++ fracDigits
  toDecStr (wei / 10 ^ 18) ++ "." ++ ⟨(trimTrailingZeros padded).map natDigitChar⟩

/-- The model of JavaScript's `toLowerCase()` as applied to addresses:
character-wise lowercasing (hex addresses are ASCII). -/
def strToLower (s : String) : String := ⟨s.data.map Char.toLower⟩

/-! ## Data model

`from` and `to` are Lean keywords, so the source's `tx.from` / `tx.to`
fields are named `fromAddr` / `toAddr` here. -/

/-- One element of an explorer transaction-list page as the scan consumes
it.  The source's `value` is a decimal numeral string; it is modelled by
its numeric value (the scan only ever tests its positivity via
`ethers.BigNumber.from(tx.value).gt(0)`). -/
structure EtherscanTx where
  hash : String
  fromAddr : String
  toAddr : String
  value : Nat
deriving DecidableEq, Repr

/-- A resolved transaction as returned by
`nodeProvider.getTransaction(hash)` (an ethers `TransactionResponse`):
`blockHash`/`blockNumber` are absent while pending, `to` is absent for
contract creation, `gasPrice` is absent for EIP-1559 transactions, and the
source `assert`s on `from`.  BigNumber amounts are unsigned wei values,
modelled as `Nat`. -/
structure EthersTx where
  hash : String
  blockHash : Option String
  fromAddr : Option String
  toAddr : Option String
  value : Nat
  gasPrice : Option Nat
  gasLimit : Nat
  blockNumber : Option Nat
deriving DecidableEq, Repr

/-- A block as returned by `nodeProvider.getBlock`; only its timestamp
(in seconds) is consumed. -/
structure Block where
  timestamp : Nat
deriving DecidableEq, Repr

/-- An `Order` row as the worker reads it: `depositAddress` models
`deposit_address->>'address'` (absent when the deposit address was
unassigned), `createdAt` is `order.createdAt.getTime()` in milliseconds,
and `createdAtBlockNumber` is the recorded creation block height. -/
structure Order where
  id : String
  depositAddress : Option String
  depositMethod : String
  createdAt : Nat
  createdAtBlockNumber : Nat
deriving DecidableEq, Repr

/-- A record held by the credit sink, keyed by `uniqueId`: the arguments
of one applied `maybeInternalCreateDeposit` call. -/
structure DepositRecord where
  orderId : String
  txid : String
  amount : String
  uniqueId : String
deriving DecidableEq, Repr

/-- The logging observable: one constructor per `logger` call site of the
worker. -/
inductive LogEvent where
  | etherscanNotConfigured : LogEvent
  | processingTask (orderId : String) : LogEvent
  | orderNotFound (orderId : String) : LogEvent
  | noDepositAddress (orderId : String) : LogEvent
  | fetchErrorLogged (orderId : String) : LogEvent
  | foundTxs (count : Nat) (orderId : String) : LogEvent
  | txNotFound (hash : String) : LogEvent
  | noBlockNumber (hash : String) : LogEvent
  | staleTx (hash : String) : LogEvent
  | scanningTx (hash : String) : LogEvent
  | storedDeposit (hash : String) (orderId : String) : LogEvent
deriving DecidableEq, Repr

/-- The observable effects of a scan: the credit sink's records and the
emitted log events, in order. -/
structure Eff where
  records : List DepositRecord
  logs : List LogEvent
deriving DecidableEq, Repr

/-- Append one log event. -/
def Eff.log (e : Eff) (ev : LogEvent) : Eff := { e with logs := e.logs ++ [ev] }

/-- The worker's environment: configuration plus the external capabilities
(order repository, node provider, explorer fetch).  `fetchPage` receives
address, start block and page index and either yields the decoded summary
page or the message of a thrown fetch/schema error. -/
structure Env where
  etherscanApiKey : Option String
  account : String
  depositMethodId : String
  orders : List Order
  getTransaction : String → Option EthersTx
  getBlock : Nat → Block
  fetchPage : String → Nat → Nat → Except String (List EtherscanTx)

/-! ## External collaborators -/

/-- Modelled from the spec: `getEthereumNativeDepositUniqueId` (imported
from `./shared`, not part of this repository) — a deterministic dedup key
computed from the deposit-method identifier and the transaction hash. -/
def getEthereumNativeDepositUniqueId (methodId txHash : String) : String :=
  methodId ++ ":" ++ txHash

/-- Modelled from the spec: the credit sink's
`maybeInternalCreateDeposit` — an idempotent `creditIfAbsent` write that
applies the record and answers `true` only when its `uniqueId` is not
already present, guaranteeing at most one record per dedup key. -/
def maybeInternalCreateDeposit (records : List DepositRecord)
    (r : DepositRecord) : Bool × List DepositRecord :=
  if records.any (fun r0 => r0.uniqueId == r.uniqueId) then (false, records)
  else (true, records ++ [r])

/-- The embedding of `fetchOrderForAddress`: the query selecting the one order whose
`deposit_method` is the native method id and whose
`deposit_address->>'address'` equals the given address (a SQL-`NULL`
deposit address never matches). -/
def fetchOrderForAddress (env : Env) (address : String) : Option Order :=
  env.orders.find? (fun o =>
    o.depositMethod == env.depositMethodId && o.depositAddress == some address)

/-! ## The per-transaction scan -/

/-- The embedding of `scanTxid`: verify one resolved transaction and credit it if it
qualifies.  Thrown errors (`assert(tx.from)`, non-string `blockHash`,
missing legacy gas price) are `Except.error`; `false` returns are silent
skips.  The checks appear in source order: contract creation, sweep
account (case-insensitive), zero value, fee model, order lookup by sender,
then the idempotent credit. -/
def scanTxid (env : Env) (eff : Eff) (tx : EthersTx) :
    Except String (Eff × Bool) :=
  match tx.fromAddr with
  | none => Except.error "from missing"
  | some fromAddr =>
    match tx.blockHash with
    | none => Except.error "blockHash must be string"
    | some _ =>
      match tx.toAddr with
      | none => Except.ok (eff, false)
      | some toAddr =>
        if strToLower toAddr != strToLower env.account then Except.ok (eff, false)
        else if tx.value == 0 then Except.ok (eff, false)
        else
          match tx.gasPrice with
          | none => Except.error "Unsupported EIP-1559 sweep transaction"
          | some gasPrice =>
            let total := nsSum (toDecStr tx.value)
              (nsTimes (toDecStr tx.gasLimit) (toDecStr gasPrice))
            match fetchOrderForAddress env fromAddr with
            | none => Except.ok (eff, false)
            | some order =>
              let totalAsEther := formatEther (parseDec total)
              let uniqueId :=
                getEthereumNativeDepositUniqueId env.depositMethodId tx.hash
              match maybeInternalCreateDeposit eff.records
                  ⟨order.id, tx.hash, totalAsEther, uniqueId⟩ with
              | (false, records1) =>
                  Except.ok ({ eff with records := records1 }, false)
              | (true, records1) =>
                  Except.ok
                    (Eff.log { eff with records := records1 }
                      (LogEvent.storedDeposit tx.hash order.id), true)

/-! ## The page loop -/

/-- The per-page candidate selection of `runScanByOrderId`:
`txs.filter(tx => BigNumber.from(tx.value).gt(0)).slice(0, 10)`. -/
def pageCandidates (txs : List EtherscanTx) : List EtherscanTx :=
  (txs.filter (fun tx => 0 < tx.value)).take 10

/-- The body of the per-candidate `pMap`: resolve the transaction, skip
(with a log) when absent or pending or when the containing block predates
the order, otherwise hand it to `scanTxid`.  A thrown error is returned as
`some msg` alongside the effects accumulated before the throw. -/
def processCandidate (env : Env) (order : Order) (eff : Eff)
    (etx : EtherscanTx) : Eff × Option String :=
  match env.getTransaction etx.hash with
  | none => (eff.log (LogEvent.txNotFound etx.hash), none)
  | some ethersTx =>
    match ethersTx.blockNumber with
    | none => (eff.log (LogEvent.noBlockNumber etx.hash), none)
    | some blockNumber =>
      let block := env.getBlock blockNumber
      if block.timestamp * 1000 < order.createdAt then
        (eff.log (LogEvent.staleTx etx.hash), none)
      else
        let eff1 := eff.log (LogEvent.scanningTx etx.hash)
        match scanTxid env eff1 ethersTx with
        | Except.error msg => (eff1, some msg)
        | Except.ok (eff2, _) => (eff2, none)

/-- The candidate batch of one page, processed in page order and stopped
at the first thrown error (the sequential determinization of the
unbounded `pMap`). -/
def processCandidates (env : Env) (order : Order) (eff : Eff) :
    List EtherscanTx → Eff × Option String
  | [] => (eff, none)
  | etx :: rest =>
    match processCandidate env order eff etx with
    | (eff1, some msg) => (eff1, some msg)
    | (eff1, none) => processCandidates env order eff1 rest

/-- How one order's scan ended: `exhausted` at an empty page, `aborted`
after a logged-and-absorbed failure (fetch error, missing order or
address), `errored` when an exception escaped the per-order callback, or
`fuelOut` when the model's fuel ran out before any of these. -/
inductive Outcome where
  | exhausted : Outcome
  | aborted : Outcome
  | errored (msg : String) : Outcome
  | fuelOut : Outcome
deriving DecidableEq, Repr

/-- The result of one order's scan: final effects, how it ended, and the
page indices fetched, in fetch order. -/
structure ScanResult where
  eff : Eff
  outcome : Outcome
  pages : List Nat
deriving DecidableEq, Repr

/-- The `while (hasMorePages)` loop of `runScanByOrderId`, with explicit
fuel (the source loop is unbounded): fetch a page — a thrown fetch/schema
error is logged and aborts the scan —, stop at an empty page, otherwise
filter/cap the page, process the candidates, and continue with the next
page index. -/
def scanPages (env : Env) (order : Order) (address : String) :
    Nat → Nat → Eff → ScanResult
  | 0, _, eff => ⟨eff, Outcome.fuelOut, []⟩
  | fuel + 1, page, eff =>
    match env.fetchPage address order.createdAtBlockNumber page with
    | Except.error _ =>
        ⟨eff.log (LogEvent.fetchErrorLogged order.id), Outcome.aborted, [page]⟩
    | Except.ok [] => ⟨eff, Outcome.exhausted, [page]⟩
    | Except.ok (t :: ts) =>
        let cands := pageCandidates (t :: ts)
        let eff1 := eff.log (LogEvent.foundTxs cands.length order.id)
        match processCandidates env order eff1 cands with
        | (eff2, some msg) => ⟨eff2, Outcome.errored msg, [page]⟩
        | (eff2, none) =>
            let r := scanPages env order address fuel (page + 1) eff2
            ⟨r.eff, r.outcome, page :: r.pages⟩

/-- The `queue.run` callback for one queued order id: load the order,
abort (logged) when it is missing or has no deposit address, otherwise run
the page loop from page 1. -/
def runScanByOrderId (env : Env) (orderId : String) (eff : Eff)
    (fuel : Nat) : ScanResult :=
  let eff := eff.log (LogEvent.processingTask orderId)
  match env.orders.find? (fun o => o.id == orderId) with
  | none => ⟨eff.log (LogEvent.orderNotFound orderId), Outcome.aborted, []⟩
  | some order =>
    match order.depositAddress with
    | none => ⟨eff.log (LogEvent.noDepositAddress orderId), Outcome.aborted, []⟩
    | some address => scanPages env order address fuel 1 eff

/-- The worker's configuration gate: with no Etherscan API key configured,
nothing is scanned (`Etherscan not configured` is logged once); otherwise
the queued order is scanned. -/
def runConfirmedNativeTokenExtraWorker (env : Env) (orderId : String)
    (eff : Eff) (fuel : Nat) : ScanResult :=
  match env.etherscanApiKey with
  | none => ⟨eff.log LogEvent.etherscanNotConfigured, Outcome.aborted, []⟩
  | some _ => runScanByOrderId env orderId eff fuel

/-! ## Pure projections of the per-transaction scan

`scanTxid` interacts with the credit sink only through one
`maybeInternalCreateDeposit` call whose argument is a pure function of the
environment and the transaction.  The two projections below (the thrown
error, if any, and the attempted credit record, if any) let every
whole-scan property reduce to facts about pure data. -/

/-- The error `scanTxid` throws for a transaction, if any (all throw sites
precede the credit call). -/
def scanTxidThrows (env : Env) (tx : EthersTx) : Option String :=
  match tx.fromAddr with
  | none => some "from missing"
  | some _ =>
    match tx.blockHash with
    | none => some "blockHash must be string"
    | some _ =>
      match tx.toAddr with
      | none => none
      | some toAddr =>
        if strToLower toAddr != strToLower env.account then none
        else if tx.value == 0 then none
        else
          match tx.gasPrice with
          | none => some "Unsupported EIP-1559 sweep transaction"
          | some _ => none

/-- The credit record `scanTxid` offers to the sink for a transaction, if
it reaches the credit call. -/
def creditAttempt (env : Env) (tx : EthersTx) : Option DepositRecord :=
  match tx.fromAddr with
  | none => none
  | some fromAddr =>
    match tx.blockHash with
    | none => none
    | some _ =>
      match tx.toAddr with
      | none => none
      | some toAddr =>
        if strToLower toAddr != strToLower env.account then none
        else if tx.value == 0 then none
        else
          match tx.gasPrice with
          | none => none
          | some gasPrice =>
            match fetchOrderForAddress env fromAddr with
            | none => none
            | some order =>
              some ⟨order.id, tx.hash,
                formatEther (parseDec (nsSum (toDecStr tx.value)
                  (nsTimes (toDecStr tx.gasLimit) (toDecStr gasPrice)))),
                getEthereumNativeDepositUniqueId env.depositMethodId tx.hash⟩

/-- The error thrown while processing one page candidate, if any. -/
def candidateThrows (env : Env) (order : Order) (etx : EtherscanTx) :
    Option String :=
  match env.getTransaction etx.hash with
  | none => none
  | some tx =>
    match tx.blockNumber with
    | none => none
    | some bn =>
      if (env.getBlock bn).timestamp * 1000 < order.createdAt then none
      else scanTxidThrows env tx

/-- The credit record offered to the sink while processing one page
candidate, if any. -/
def candidateAttempt (env : Env) (order : Order) (etx : EtherscanTx) :
    Option DepositRecord :=
  match env.getTransaction etx.hash with
  | none => none
  | some tx =>
    match tx.blockNumber with
    | none => none
    | some bn =>
      if (env.getBlock bn).timestamp * 1000 < order.createdAt then none
      else creditAttempt env tx

/-- Apply one offered record through the idempotent sink. -/
def applyRecord (records : List DepositRecord) (r : DepositRecord) :
    List DepositRecord :=
  (maybeInternalCreateDeposit records r).2

/-- Apply an optional offered record. -/
def applyAttempt (records : List DepositRecord) (a : Option DepositRecord) :
    List DepositRecord :=
  match a with
  | none => records
  | some r => applyRecord records r

/-- The records offered to the sink over one page's candidate batch, in
batch order, cut off at the first thrown error. -/
def batchAttempts (env : Env) (order : Order) :
    List EtherscanTx → List DepositRecord
  | [] => []
  | etx :: rest =>
    match candidateThrows env order etx with
    | some _ => []
    | none =>
        (candidateAttempt env order etx).toList ++ batchAttempts env order rest

/-- The first error thrown over one page's candidate batch, if any. -/
def batchThrows (env : Env) (order : Order) :
    List EtherscanTx → Option String
  | [] => none
  | etx :: rest =>
    match candidateThrows env order etx with
    | some msg => some msg
    | none => batchThrows env order rest

/-- The records offered to the sink over the whole page loop, in order,
starting at a given page with given fuel. -/
def scanAttempts (env : Env) (order : Order) (address : String) :
    Nat → Nat → List DepositRecord
  | 0, _ => []
  | fuel + 1, page =>
    match env.fetchPage address order.createdAtBlockNumber page with
    | Except.error _ => []
    | Except.ok [] => []
    | Except.ok (t :: ts) =>
      match batchThrows env order (pageCandidates (t :: ts)) with
      | some _ => batchAttempts env order (pageCandidates (t :: ts))
      | none => batchAttempts env order (pageCandidates (t :: ts)) ++
          scanAttempts env order address fuel (page + 1)

/-- The records offered to the sink over one queued order's scan. -/
def orderScanAttempts (env : Env) (orderId : String) (fuel : Nat) :
    List DepositRecord :=
  match env.orders.find? (fun o => o.id == orderId) with
  | none => []
  | some order =>
    match order.depositAddress with
    | none => []
    | some address => scanAttempts env order address fuel 1

/-! ## The sink's idempotence algebra -/

/-- Whether the sink already holds a record under a dedup key. -/
def hasUniqueId (records : List DepositRecord) (uid : String) : Bool :=
  records.any (fun r => r.uniqueId == uid)

/-- The sink contents after `n` re-runs of the same order scan over an
unchanged environment (each run starts from the previous run's sink
contents; the sink persists across runs, the log stream does not
matter for records). -/
def recordsAfterRuns (env : Env) (orderId : String) (fuel : Nat) :
    Nat → List DepositRecord
  | 0 => []
  | n + 1 =>
      (runScanByOrderId env orderId
        ⟨recordsAfterRuns env orderId fuel n, []⟩ fuel).eff.records

/-- Everything the code guarantees about a record it credits during one
order's scan: the record was built by `scanTxid` from a resolved, mined,
non-stale transaction that passed every check, for the order found by the
sender's deposit address. -/
def CreditProvenance (env : Env) (order : Order) (r : DepositRecord) : Prop :=
  ∃ candidateHash tx bn fromAddr bh toAddr gp o,
    env.getTransaction candidateHash = some tx ∧
    tx.blockNumber = some bn ∧
    order.createdAt ≤ (env.getBlock bn).timestamp * 1000 ∧
    tx.fromAddr = some fromAddr ∧
    tx.blockHash = some bh ∧
    tx.toAddr = some toAddr ∧
    strToLower toAddr = strToLower env.account ∧
    tx.value ≠ 0 ∧
    tx.gasPrice = some gp ∧
    fetchOrderForAddress env fromAddr = some o ∧
    r = ⟨o.id, tx.hash, formatEther (tx.value + tx.gasLimit * gp),
      getEthereumNativeDepositUniqueId env.depositMethodId tx.hash⟩

/-! ## Spec-side reference definitions

These follow the specification's words, to be compared with the
definitions taken from the source. -/

/-- Written from the spec's words: the first `n` summaries, in the page's
order, whose value is strictly positive. -/
def firstPositiveCandidates : Nat → List EtherscanTx → List EtherscanTx
  | _, [] => []
  | 0, _ :: _ => []
  | n + 1, tx :: rest =>
    if 0 < tx.value then tx :: firstPositiveCandidates n rest
    else firstPositiveCandidates (n + 1) rest

/-- The verdict of the per-candidate verification pipeline. -/
inductive Verdict where
  | notFound : Verdict
  | pending : Verdict
  | stale : Verdict
  | fromMissing : Verdict
  | blockHashMissing : Verdict
  | contractCreation : Verdict
  | notASweep : Verdict
  | zeroValue : Verdict
  | unsupportedFeeModel : Verdict
  | candidate (total : Nat) : Verdict
deriving DecidableEq, Repr

/-- The verification checks in the source's order (the pure projection of
the `pMap` body followed by `scanTxid`): resolve, pending, stale, then the
`assert`ed sender and block hash, then contract creation, sweep account,
zero value, fee model. -/
def verdictOf (env : Env) (order : Order) (txHash : String) : Verdict :=
  match env.getTransaction txHash with
  | none => Verdict.notFound
  | some tx =>
    match tx.blockNumber with
    | none => Verdict.pending
    | some bn =>
      if (env.getBlock bn).timestamp * 1000 < order.createdAt then
        Verdict.stale
      else
        match tx.fromAddr with
        | none => Verdict.fromMissing
        | some _ =>
          match tx.blockHash with
          | none => Verdict.blockHashMissing
          | some _ =>
            match tx.toAddr with
            | none => Verdict.contractCreation
            | some toAddr =>
              if strToLower toAddr != strToLower env.account then Verdict.notASweep
              else if tx.value == 0 then Verdict.zeroValue
              else
                match tx.gasPrice with
                | none => Verdict.unsupportedFeeModel
                | some gp => Verdict.candidate (tx.value + tx.gasLimit * gp)

/-- Written from the claim's words: the checks in the claimed order —
not found; pending; stale; contract creation; not a sweep
(case-insensitive); zero value; missing legacy gas price. -/
def specVerdict (env : Env) (order : Order) (txHash : String) : Verdict :=
  match env.getTransaction txHash with
  | none => Verdict.notFound
  | some tx =>
    match tx.blockNumber with
    | none => Verdict.pending
    | some bn =>
      if (env.getBlock bn).timestamp * 1000 < order.createdAt then
        Verdict.stale
      else
        match tx.toAddr with
        | none => Verdict.contractCreation
        | some toAddr =>
          if strToLower toAddr != strToLower env.account then Verdict.notASweep
          else if tx.value == 0 then Verdict.zeroValue
          else
            match tx.gasPrice with
            | none => Verdict.unsupportedFeeModel
            | some gp => Verdict.candidate (tx.value + tx.gasLimit * gp)

/-! ## Concrete instances -/

/-- The empty effect state: empty sink, no logs yet. -/
def emptyEff : Eff := ⟨[], []⟩

/-- A node returning exactly one transaction, under a fixed hash key. -/
def singleTx (key : String) (tx : EthersTx) : String → Option EthersTx :=
  fun h => if h == key then some tx else none

/-- A well-formed transaction-list page body with one record (the record
also carries an extra field, which the zod schema ignores). -/
def sampleTxListBody : Json :=
  Json.arr [Json.obj [("hash", Json.str "0xabc"), ("from", Json.str "0xdep"),
    ("to", Json.str "0xacct"), ("value", Json.str "5"),
    ("blockNumber", Json.str "105")]]

/-- An EIP-1559 sweep transaction (no legacy gas price) that passes every
earlier check. -/
def c4Tx : EthersTx :=
  ⟨"t1", some "b1", some "src", some "acct", 5, none, 21000, some 105⟩

/-- Environment whose only candidate is the EIP-1559 sweep `c4Tx`. -/
def c4Env : Env :=
  ⟨some "key", "acct", "eth", [⟨"A", some "dep", "eth", 0, 100⟩],
    singleTx "t1" c4Tx, fun _ => ⟨1000⟩,
    fun _ _ page =>
      if page == 1 then Except.ok [⟨"t1", "src", "acct", 5⟩]
      else Except.ok []⟩

/-- The same legacy-gas variant of `c4Tx`. -/
def c4wTx : EthersTx :=
  ⟨"t1", some "b1", some "src", some "acct", 5, some 2, 21000, some 105⟩

/-- Environment whose only candidate carries a legacy gas price. -/
def c4wEnv : Env :=
  ⟨some "key", "acct", "eth", [⟨"A", some "dep", "eth", 0, 100⟩],
    singleTx "t1" c4wTx, fun _ => ⟨1000⟩,
    fun _ _ page =>
      if page == 1 then Except.ok [⟨"t1", "src", "acct", 5⟩]
      else Except.ok []⟩

/-- Environment for the pagination counterexample: every fetch succeeds,
page 1 is non-empty and holds the EIP-1559 sweep, later pages are
empty. -/
def c6Env : Env :=
  ⟨some "key", "acct", "eth", [⟨"A", some "dep", "eth", 0, 100⟩],
    singleTx "t1" c4Tx, fun _ => ⟨1000⟩,
    fun _ _ page =>
      if page == 1 then Except.ok [⟨"t1", "src", "acct", 5⟩]
      else Except.ok []⟩

/-- Environment for the pagination witness: page 1 non-empty and benign
(its candidate does not resolve), page 2 empty. -/
def c6wEnv : Env :=
  ⟨some "key", "acct", "eth", [⟨"A", some "dep", "eth", 0, 100⟩],
    fun _ => none, fun _ => ⟨1000⟩,
    fun _ _ page =>
      if page == 1 then Except.ok [⟨"t1", "src", "acct", 5⟩]
      else Except.ok []⟩

/-- A resolved sweep transaction whose containing block predates its
order. -/
def c2wTx : EthersTx :=
  ⟨"t1", some "b1", some "dep", some "acct", 5, some 2, 3, some 50⟩

/-- Environment with one stale candidate: block time 5 s (5000 ms) against
an order created at 10000 ms. -/
def c2wEnv : Env :=
  ⟨some "key", "acct", "eth", [⟨"A", some "dep", "eth", 10000, 100⟩],
    singleTx "t1" c2wTx, fun _ => ⟨5⟩,
    fun _ _ page =>
      if page == 1 then Except.ok [⟨"t1", "dep", "acct", 5⟩]
      else Except.ok []⟩

/-- A fresh sweep transaction sent from the order's deposit address. -/
def c5wTx : EthersTx :=
  ⟨"t1", some "b1", some "dep", some "acct", 5, some 2, 3, some 50⟩

/-- Environment in which `c5wTx` is credited to order `A` (block time
2000 s against an order created at 1000 ms). -/
def c5wEnv : Env :=
  ⟨some "key", "acct", "eth", [⟨"A", some "dep", "eth", 1000, 100⟩],
    singleTx "t1" c5wTx, fun _ => ⟨2000⟩,
    fun _ _ page =>
      if page == 1 then Except.ok [⟨"t1", "dep", "acct", 5⟩]
      else Except.ok []⟩

/-! ## Theorems -/

/-- Every digit produced by `natDigits` is below 10. -/
theorem natDigits_lt_ten (n : Nat) : ∀ d ∈ natDigits n, d < 10 := by
  induction n using Nat.strong_induction_on with
  | _ n ih =>
    intro d hd
    rw [natDigits] at hd
    by_cases h : n < 10
    · simp only [dif_pos h, List.mem_singleton] at hd
      omega
    · simp only [dif_neg h, List.mem_append, List.mem_singleton] at hd
      rcases hd with hd | hd
      · exact ih (n / 10) (Nat.div_lt_self (by omega) (by omega)) d hd
      · omega

/-- The digit/character conversion round-trips on digit values. -/
theorem charToDigit_natDigitChar {d : Nat} (h : d < 10) :
    charToDigit (natDigitChar d) = d := by
  interval_cases d <;> decide

/-- Folding the base-10 accumulation over `natDigits n` recovers `n`
(generalized over the accumulator). -/
theorem foldl_natDigits (n : Nat) : ∀ acc : Nat,
    (natDigits n).foldl (fun acc d => acc * 10 + d) acc =
      acc * 10 ^ (natDigits n).length + n := by
  induction n using Nat.strong_induction_on with
  | _ n ih =>
    intro acc
    rw [natDigits]
    by_cases h : n < 10
    · simp [dif_pos h]
    · have hrec := ih (n / 10) (Nat.div_lt_self (by omega) (by omega))
      simp only [dif_neg h, List.foldl_append, List.foldl_cons, List.foldl_nil,
        List.length_append, List.length_singleton, hrec]
      rw [pow_succ]
      have := Nat.div_add_mod n 10
      ring_nf
      omega

/-- Printing then parsing a decimal numeral is the identity. -/
theorem parseDec_toDecStr (n : Nat) : parseDec (toDecStr n) = n := by
  have hlt := natDigits_lt_ten n
  unfold parseDec toDecStr
  simp only [List.foldl_map]
  have : (natDigits n).foldl
      (fun acc c => acc * 10 + charToDigit (natDigitChar c)) 0 =
      (natDigits n).foldl (fun acc d => acc * 10 + d) 0 := by
    apply List.foldl_ext
    intro acc d hd
    rw [charToDigit_natDigitChar (hlt d hd)]
  rw [this, foldl_natDigits]
  omega

/-- The `ns` computation the source performs for the swept total,
`ns.sum(value, ns.times(gasLimit, gasPrice))`, is exact `Nat`
arithmetic on the printed numerals. -/
theorem nsSum_nsTimes_exact (v gl gp : Nat) :
    nsSum (toDecStr v) (nsTimes (toDecStr gl) (toDecStr gp)) =
      toDecStr (v + gl * gp) := by
  unfold nsSum nsTimes
  rw [parseDec_toDecStr, parseDec_toDecStr, parseDec_toDecStr,
    parseDec_toDecStr]

/-- Characterization of `scanTxid` by its two pure projections: it throws
exactly `scanTxidThrows`, and otherwise passes exactly `creditAttempt`
(when present) to the idempotent sink. -/
theorem scanTxid_characterization (env : Env) (eff : Eff) (tx : EthersTx) :
    scanTxid env eff tx =
      match scanTxidThrows env tx with
      | some msg => Except.error msg
      | none =>
        match creditAttempt env tx with
        | none => Except.ok (eff, false)
        | some r =>
          match maybeInternalCreateDeposit eff.records r with
          | (false, records1) => Except.ok ({ eff with records := records1 }, false)
          | (true, records1) =>
              Except.ok (Eff.log { eff with records := records1 }
                (LogEvent.storedDeposit tx.hash r.orderId), true) := by
  cases hf : tx.fromAddr with
  | none => simp [scanTxid, scanTxidThrows, creditAttempt, hf]
  | some fromAddr =>
    cases hb : tx.blockHash with
    | none => simp [scanTxid, scanTxidThrows, creditAttempt, hf, hb]
    | some bh =>
      cases ht : tx.toAddr with
      | none => simp [scanTxid, scanTxidThrows, creditAttempt, hf, hb, ht]
      | some toAddr =>
        cases hsweep : strToLower toAddr != strToLower env.account with
        | true =>
            simp [scanTxid, scanTxidThrows, creditAttempt, hf, hb, ht, hsweep]
        | false =>
          cases hval : tx.value == 0 with
          | true =>
              simp [scanTxid, scanTxidThrows, creditAttempt, hf, hb, ht,
                hsweep, hval]
          | false =>
            cases hg : tx.gasPrice with
            | none =>
                simp [scanTxid, scanTxidThrows, creditAttempt, hf, hb, ht,
                  hsweep, hval, hg]
            | some gasPrice =>
              cases ho : fetchOrderForAddress env fromAddr with
              | none =>
                  simp [scanTxid, scanTxidThrows, creditAttempt, hf, hb, ht,
                    hsweep, hval, hg, ho]
              | some order =>
                  simp [scanTxid, scanTxidThrows, creditAttempt, hf, hb, ht,
                    hsweep, hval, hg, ho]

/-- A transaction on which `scanTxid` throws never reaches the credit
call. -/
theorem creditAttempt_none_of_throws (env : Env) (tx : EthersTx)
    (msg : String) (h : scanTxidThrows env tx = some msg) :
    creditAttempt env tx = none := by
  cases hf : tx.fromAddr with
  | none => simp [creditAttempt, hf]
  | some fromAddr =>
    cases hb : tx.blockHash with
    | none => simp [creditAttempt, hf, hb]
    | some bh =>
      cases ht : tx.toAddr with
      | none => simp [creditAttempt, hf, hb, ht]
      | some toAddr =>
        cases hsweep : strToLower toAddr != strToLower env.account with
        | true => simp [creditAttempt, hf, hb, ht, hsweep]
        | false =>
          cases hval : tx.value == 0 with
          | true => simp [creditAttempt, hf, hb, ht, hsweep, hval]
          | false =>
            cases hg : tx.gasPrice with
            | none => simp [creditAttempt, hf, hb, ht, hsweep, hval, hg]
            | some gasPrice =>
              exfalso
              simp [scanTxidThrows, hf, hb, ht, hsweep, hval, hg] at h

/-- A candidate on which processing throws never reaches the credit
call. -/
theorem candidateAttempt_none_of_throws (env : Env) (order : Order)
    (etx : EtherscanTx) (msg : String)
    (h : candidateThrows env order etx = some msg) :
    candidateAttempt env order etx = none := by
  cases hg : env.getTransaction etx.hash with
  | none => simp [candidateAttempt, hg]
  | some tx =>
    cases hbn : tx.blockNumber with
    | none => simp [candidateAttempt, hg, hbn]
    | some bn =>
      by_cases hts : (env.getBlock bn).timestamp * 1000 < order.createdAt
      · simp [candidateAttempt, hg, hbn, hts]
      · have hth : scanTxidThrows env tx = some msg := by
          simpa [candidateThrows, hg, hbn, hts] using h
        simp [candidateAttempt, hg, hbn, hts,
          creditAttempt_none_of_throws env tx msg hth]

/-- Characterization of `processCandidate` by its pure projections: its record
effect is `candidateAttempt` pushed through the sink, and it throws
exactly `candidateThrows`. -/
theorem processCandidate_spec (env : Env) (order : Order) (eff : Eff)
    (etx : EtherscanTx) :
    (processCandidate env order eff etx).1.records =
      applyAttempt eff.records (candidateAttempt env order etx) ∧
    (processCandidate env order eff etx).2 =
      candidateThrows env order etx := by
  cases hg : env.getTransaction etx.hash with
  | none =>
      simp [processCandidate, candidateAttempt, candidateThrows, hg,
        applyAttempt, Eff.log]
  | some tx =>
    cases hbn : tx.blockNumber with
    | none =>
        simp [processCandidate, candidateAttempt, candidateThrows, hg, hbn,
          applyAttempt, Eff.log]
    | some bn =>
      by_cases hts : (env.getBlock bn).timestamp * 1000 < order.createdAt
      · simp [processCandidate, candidateAttempt, candidateThrows, hg, hbn,
          hts, applyAttempt, Eff.log]
      · cases hth : scanTxidThrows env tx with
        | some msg =>
            have hca := creditAttempt_none_of_throws env tx msg hth
            simp [processCandidate, candidateAttempt, candidateThrows, hg,
              hbn, hts, scanTxid_characterization, hth, hca, applyAttempt,
              Eff.log]
        | none =>
          cases hca : creditAttempt env tx with
          | none =>
              simp [processCandidate, candidateAttempt, candidateThrows, hg,
                hbn, hts, scanTxid_characterization, hth, hca, applyAttempt,
                Eff.log]
          | some r =>
              cases hm : maybeInternalCreateDeposit eff.records r with
              | mk b records1 =>
                cases b <;>
                  simp [processCandidate, candidateAttempt, candidateThrows,
                    hg, hbn, hts, scanTxid_characterization, hth, hca,
                    applyAttempt, applyRecord, Eff.log, hm]

/-- Characterization of `processCandidates`: its record effect folds the
batch's offered records through the sink, and it reports the batch's first
thrown error. -/
theorem processCandidates_spec (env : Env) (order : Order) :
    ∀ (l : List EtherscanTx) (eff : Eff),
    (processCandidates env order eff l).1.records =
      List.foldl applyRecord eff.records (batchAttempts env order l) ∧
    (processCandidates env order eff l).2 = batchThrows env order l := by
  intro l
  induction l with
  | nil => intro eff; exact ⟨rfl, rfl⟩
  | cons etx rest ih =>
    intro eff
    obtain ⟨hrec, herr⟩ := processCandidate_spec env order eff etx
    cases hpc : processCandidate env order eff etx with
    | mk eff1 err =>
      rw [hpc] at hrec herr
      cases hct : candidateThrows env order etx with
      | some msg =>
        rw [hct] at herr
        simp only at hrec herr
        subst herr
        have hca := candidateAttempt_none_of_throws env order etx msg hct
        rw [hca] at hrec
        constructor
        · simp only [processCandidates, hpc]
          simp [batchAttempts, hct, hrec, applyAttempt]
        · simp only [processCandidates, hpc]
          simp [batchThrows, hct]
      | none =>
        rw [hct] at herr
        simp only at hrec herr
        subst herr
        obtain ⟨ih1, ih2⟩ := ih eff1
        constructor
        · simp only [processCandidates, hpc]
          rw [ih1, hrec]
          cases hca : candidateAttempt env order etx with
          | none => simp [batchAttempts, hct, hca, applyAttempt]
          | some r => simp [batchAttempts, hct, hca, applyAttempt]
        · simp only [processCandidates, hpc]
          rw [ih2]
          simp [batchThrows, hct]

/-- The page loop's record effect folds the loop's offered records through
the sink. -/
theorem scanPages_records (env : Env) (order : Order) (address : String) :
    ∀ (fuel page : Nat) (eff : Eff),
    (scanPages env order address fuel page eff).eff.records =
      List.foldl applyRecord eff.records
        (scanAttempts env order address fuel page) := by
  intro fuel
  induction fuel with
  | zero => intro page eff; rfl
  | succ n ih =>
    intro page eff
    cases hfp : env.fetchPage address order.createdAtBlockNumber page with
    | error e => simp [scanPages, scanAttempts, hfp, Eff.log]
    | ok txs =>
      cases txs with
      | nil => simp [scanPages, scanAttempts, hfp]
      | cons t ts =>
        obtain ⟨h1, h2⟩ := processCandidates_spec env order
          (pageCandidates (t :: ts))
          (Eff.log eff
            (LogEvent.foundTxs (pageCandidates (t :: ts)).length order.id))
        cases hpc : processCandidates env order
            (Eff.log eff
              (LogEvent.foundTxs (pageCandidates (t :: ts)).length order.id))
            (pageCandidates (t :: ts)) with
        | mk eff2 err =>
          rw [hpc] at h1 h2
          simp only at h1 h2
          cases hbt : batchThrows env order (pageCandidates (t :: ts)) with
          | some msg =>
            rw [hbt] at h2
            subst h2
            simp only [scanPages, hfp, hpc]
            rw [h1]
            simp [scanAttempts, hfp, hbt, Eff.log]
          | none =>
            rw [hbt] at h2
            subst h2
            simp only [scanPages, hfp, hpc]
            rw [ih (page + 1) eff2, h1]
            simp [scanAttempts, hfp, hbt, Eff.log, List.foldl_append]

/-- One queued order's scan, characterized on records: its final sink
contents fold the scan's offered records (a pure function of the
environment) through the idempotent sink. -/
theorem runScanByOrderId_records (env : Env) (orderId : String) (eff : Eff)
    (fuel : Nat) :
    (runScanByOrderId env orderId eff fuel).eff.records =
      List.foldl applyRecord eff.records
        (orderScanAttempts env orderId fuel) := by
  cases hfo : env.orders.find? (fun o => o.id == orderId) with
  | none => simp [runScanByOrderId, orderScanAttempts, hfo, Eff.log]
  | some order =>
    cases hda : order.depositAddress with
    | none => simp [runScanByOrderId, orderScanAttempts, hfo, hda, Eff.log]
    | some address =>
      simp only [runScanByOrderId, orderScanAttempts, hfo, hda]
      rw [scanPages_records]
      simp [Eff.log]

/-- Re-offering a dedup key the sink already holds changes nothing. -/
theorem applyRecord_stable {records : List DepositRecord}
    {r : DepositRecord} (h : hasUniqueId records r.uniqueId = true) :
    applyRecord records r = records := by
  unfold hasUniqueId at h
  unfold applyRecord maybeInternalCreateDeposit
  rw [h]
  simp

/-- Offering a dedup key the sink does not yet hold appends its record. -/
theorem applyRecord_fresh {records : List DepositRecord}
    {r : DepositRecord} (h : hasUniqueId records r.uniqueId = false) :
    applyRecord records r = records ++ [r] := by
  unfold hasUniqueId at h
  unfold applyRecord maybeInternalCreateDeposit
  rw [h]
  simp

/-- After offering a record, its dedup key is held. -/
theorem hasUniqueId_applyRecord_self (records : List DepositRecord)
    (r : DepositRecord) :
    hasUniqueId (applyRecord records r) r.uniqueId = true := by
  by_cases h : hasUniqueId records r.uniqueId = true
  · rw [applyRecord_stable h]; exact h
  · rw [Bool.not_eq_true] at h
    rw [applyRecord_fresh h]
    unfold hasUniqueId
    simp

/-- Offering a record never removes a held dedup key. -/
theorem hasUniqueId_applyRecord_mono {records : List DepositRecord}
    {uid : String} (r : DepositRecord)
    (h : hasUniqueId records uid = true) :
    hasUniqueId (applyRecord records r) uid = true := by
  by_cases hc : hasUniqueId records r.uniqueId = true
  · rw [applyRecord_stable hc]; exact h
  · rw [Bool.not_eq_true] at hc
    rw [applyRecord_fresh hc]
    unfold hasUniqueId at h ⊢
    simp only [List.any_append, Bool.or_eq_true]
    exact Or.inl h

/-- Folding offers never removes a held dedup key. -/
theorem hasUniqueId_foldl_mono {uid : String} :
    ∀ (l : List DepositRecord) (records : List DepositRecord),
    hasUniqueId records uid = true →
    hasUniqueId (List.foldl applyRecord records l) uid = true := by
  intro l
  induction l with
  | nil => intro records h; exact h
  | cons r rest ih =>
    intro records h
    exact ih (applyRecord records r) (hasUniqueId_applyRecord_mono r h)

/-- After folding a batch of offers, every offered dedup key is held. -/
theorem hasUniqueId_foldl_self :
    ∀ (l : List DepositRecord) (records : List DepositRecord),
    ∀ r ∈ l, hasUniqueId (List.foldl applyRecord records l) r.uniqueId = true := by
  intro l
  induction l with
  | nil => intro records r hr; cases hr
  | cons r0 rest ih =>
    intro records r hr
    rcases List.mem_cons.mp hr with h | h
    · subst h
      exact hasUniqueId_foldl_mono rest _
        (hasUniqueId_applyRecord_self records r)
    · exact ih (applyRecord records r0) r h

/-- Folding offers whose dedup keys are all already held changes
nothing. -/
theorem foldl_applyRecord_stable :
    ∀ (l : List DepositRecord) (records : List DepositRecord),
    (∀ r ∈ l, hasUniqueId records r.uniqueId = true) →
    List.foldl applyRecord records l = records := by
  intro l
  induction l with
  | nil => intro records _; rfl
  | cons r rest ih =>
    intro records h
    have h0 : applyRecord records r = records :=
      applyRecord_stable (h r (List.mem_cons_self r rest))
    simp only [List.foldl_cons, h0]
    exact ih records (fun r' hr' => h r' (List.mem_cons_of_mem r hr'))

/-- Folding the same batch of offers a second time is a no-op. -/
theorem foldl_applyRecord_idem (l : List DepositRecord)
    (records : List DepositRecord) :
    List.foldl applyRecord (List.foldl applyRecord records l) l =
      List.foldl applyRecord records l :=
  foldl_applyRecord_stable l _ (hasUniqueId_foldl_self l records)

/-- Offering a record preserves distinctness of held dedup keys. -/
theorem nodup_applyRecord {records : List DepositRecord}
    (r : DepositRecord)
    (h : (records.map (fun r0 => r0.uniqueId)).Nodup) :
    ((applyRecord records r).map (fun r0 => r0.uniqueId)).Nodup := by
  by_cases hc : hasUniqueId records r.uniqueId = true
  · rw [applyRecord_stable hc]; exact h
  · rw [Bool.not_eq_true] at hc
    rw [applyRecord_fresh hc]
    simp only [List.map_append, List.map_cons, List.map_nil]
    rw [List.nodup_append]
    refine ⟨h, List.nodup_singleton _, ?_⟩
    intro a ha hb
    simp only [List.mem_singleton] at hb
    subst hb
    simp only [List.mem_map] at ha
    obtain ⟨r0, hr0, huid⟩ := ha
    have hany : hasUniqueId records r.uniqueId = true := by
      unfold hasUniqueId
      simp only [List.any_eq_true]
      exact ⟨r0, hr0, by simp [huid]⟩
    rw [hany] at hc
    cases hc

/-- Folding offers preserves distinctness of held dedup keys. -/
theorem nodup_foldl_applyRecord :
    ∀ (l : List DepositRecord) (records : List DepositRecord),
    (records.map (fun r0 => r0.uniqueId)).Nodup →
    ((List.foldl applyRecord records l).map (fun r0 => r0.uniqueId)).Nodup := by
  intro l
  induction l with
  | nil => intro records h; exact h
  | cons r rest ih =>
    intro records h
    exact ih (applyRecord records r) (nodup_applyRecord r h)

/-! ## Absence of thrown errors under well-formed node data -/

/-- The function `scanTxid` throws nothing on a transaction carrying a sender, a block
hash and a legacy gas price. -/
theorem scanTxidThrows_none (env : Env) (tx : EthersTx)
    (hf : tx.fromAddr.isSome = true) (hb : tx.blockHash.isSome = true)
    (hg : tx.gasPrice.isSome = true) :
    scanTxidThrows env tx = none := by
  obtain ⟨fromAddr, hf2⟩ := Option.isSome_iff_exists.mp hf
  obtain ⟨bh, hb2⟩ := Option.isSome_iff_exists.mp hb
  obtain ⟨gp, hg2⟩ := Option.isSome_iff_exists.mp hg
  cases ht : tx.toAddr with
  | none => simp [scanTxidThrows, hf2, hb2, ht]
  | some toAddr =>
    cases hs : strToLower toAddr != strToLower env.account with
    | true => simp [scanTxidThrows, hf2, hb2, ht, hs]
    | false =>
      cases hv : tx.value == 0 with
      | true => simp [scanTxidThrows, hf2, hb2, ht, hs, hv]
      | false => simp [scanTxidThrows, hf2, hb2, ht, hs, hv, hg2]

/-- When every transaction the node returns carries a sender, a block hash
and a legacy gas price, candidate processing throws nothing. -/
theorem candidateThrows_none (env : Env) (order : Order) (etx : EtherscanTx)
    (hgood : ∀ h tx, env.getTransaction h = some tx →
      tx.fromAddr.isSome = true ∧ tx.blockHash.isSome = true ∧
      tx.gasPrice.isSome = true) :
    candidateThrows env order etx = none := by
  cases hg : env.getTransaction etx.hash with
  | none => simp [candidateThrows, hg]
  | some tx =>
    obtain ⟨h1, h2, h3⟩ := hgood etx.hash tx hg
    cases hbn : tx.blockNumber with
    | none => simp [candidateThrows, hg, hbn]
    | some bn =>
      by_cases hts : (env.getBlock bn).timestamp * 1000 < order.createdAt
      · simp [candidateThrows, hg, hbn, hts]
      · simp [candidateThrows, hg, hbn, hts,
          scanTxidThrows_none env tx h1 h2 h3]

/-- Batch processing throws nothing under the same node hypothesis. -/
theorem batchThrows_none (env : Env) (order : Order)
    (hgood : ∀ h tx, env.getTransaction h = some tx →
      tx.fromAddr.isSome = true ∧ tx.blockHash.isSome = true ∧
      tx.gasPrice.isSome = true) :
    ∀ l : List EtherscanTx, batchThrows env order l = none := by
  intro l
  induction l with
  | nil => rfl
  | cons etx rest ih =>
    simp [batchThrows, candidateThrows_none env order etx hgood, ih]

/-- The page loop never ends `errored` under the same node hypothesis. -/
theorem scanPages_no_error (env : Env) (order : Order) (address : String)
    (hgood : ∀ h tx, env.getTransaction h = some tx →
      tx.fromAddr.isSome = true ∧ tx.blockHash.isSome = true ∧
      tx.gasPrice.isSome = true) :
    ∀ (fuel page : Nat) (eff : Eff) (msg : String),
    (scanPages env order address fuel page eff).outcome ≠
      Outcome.errored msg := by
  intro fuel
  induction fuel with
  | zero => intro page eff msg; simp [scanPages]
  | succ n ih =>
    intro page eff msg
    cases hfp : env.fetchPage address order.createdAtBlockNumber page with
    | error e => simp [scanPages, hfp]
    | ok txs =>
      cases txs with
      | nil => simp [scanPages, hfp]
      | cons t ts =>
        obtain ⟨h1, h2⟩ := processCandidates_spec env order
          (pageCandidates (t :: ts))
          (Eff.log eff
            (LogEvent.foundTxs (pageCandidates (t :: ts)).length order.id))
        cases hpc : processCandidates env order
            (Eff.log eff
              (LogEvent.foundTxs (pageCandidates (t :: ts)).length order.id))
            (pageCandidates (t :: ts)) with
        | mk eff2 err =>
          rw [hpc] at h2
          simp only at h2
          rw [batchThrows_none env order hgood] at h2
          subst h2
          simp only [scanPages, hfp, hpc]
          exact ih (page + 1) eff2 msg

/-- One order's scan never ends `errored` under the same node
hypothesis. -/
theorem runScanByOrderId_no_error (env : Env) (orderId : String) (eff : Eff)
    (fuel : Nat) (msg : String)
    (hgood : ∀ h tx, env.getTransaction h = some tx →
      tx.fromAddr.isSome = true ∧ tx.blockHash.isSome = true ∧
      tx.gasPrice.isSome = true) :
    (runScanByOrderId env orderId eff fuel).outcome ≠ Outcome.errored msg := by
  cases hfo : env.orders.find? (fun o => o.id == orderId) with
  | none => simp [runScanByOrderId, hfo]
  | some order =>
    cases hda : order.depositAddress with
    | none => simp [runScanByOrderId, hfo, hda]
    | some address =>
      simp only [runScanByOrderId, hfo, hda]
      exact scanPages_no_error env order address hgood fuel 1 _ msg

/-! ## Exhaustion of the page loop -/

/-- When pages `1, …, m-1` fetch non-empty without a thrown error and page
`m` fetches empty, the loop started at page `p ≤ m` with enough fuel ends
`Exhausted` having fetched exactly pages `p, …, m` in increasing order. -/
theorem scanPages_exhausts (env : Env) (order : Order) (address : String)
    (m : Nat)
    (hne : ∀ q, 1 ≤ q → q < m → ∃ t ts,
      env.fetchPage address order.createdAtBlockNumber q =
        Except.ok (t :: ts) ∧
      batchThrows env order (pageCandidates (t :: ts)) = none)
    (hm : env.fetchPage address order.createdAtBlockNumber m =
      Except.ok []) :
    ∀ (fuel p : Nat) (eff : Eff), 1 ≤ p → p ≤ m → m - p < fuel →
    (scanPages env order address fuel p eff).outcome = Outcome.exhausted ∧
    (scanPages env order address fuel p eff).pages =
      List.range' p (m + 1 - p) := by
  intro fuel
  induction fuel with
  | zero => intro p eff _ _ hcontra; omega
  | succ n ih =>
    intro p eff hp1 hpm hfuel
    by_cases hpeq : p = m
    · subst hpeq
      constructor
      · simp [scanPages, hm]
      · simp only [scanPages, hm]
        have hone : p + 1 - p = 1 := by omega
        rw [hone]
        simp [List.range']
    · have hplt : p < m := by omega
      obtain ⟨t, ts, hfp, hbt⟩ := hne p hp1 hplt
      obtain ⟨h1, h2⟩ := processCandidates_spec env order
        (pageCandidates (t :: ts))
        (Eff.log eff
          (LogEvent.foundTxs (pageCandidates (t :: ts)).length order.id))
      cases hpc : processCandidates env order
          (Eff.log eff
            (LogEvent.foundTxs (pageCandidates (t :: ts)).length order.id))
          (pageCandidates (t :: ts)) with
      | mk eff2 err =>
        rw [hpc] at h2
        simp only at h2
        rw [hbt] at h2
        subst h2
        obtain ⟨ihout, ihpages⟩ := ih (p + 1) eff2 (by omega) (by omega)
          (by omega)
        constructor
        · simp only [scanPages, hfp, hpc]
          exact ihout
        · simp only [scanPages, hfp, hpc]
          rw [ihpages]
          have hsplit : m + 1 - p = (m - p) + 1 := by omega
          have hsplit2 : m + 1 - (p + 1) = m - p := by omega
          rw [hsplit, hsplit2]
          rfl

/-! ## Provenance of credited records -/

/-- Inverting a successful `creditAttempt`: the transaction passed every
check and the record is built from its fields, with the amount in exact
arithmetic. -/
theorem creditAttempt_some (env : Env) (tx : EthersTx) (r : DepositRecord)
    (h : creditAttempt env tx = some r) :
    ∃ fromAddr bh toAddr gp o,
      tx.fromAddr = some fromAddr ∧ tx.blockHash = some bh ∧
      tx.toAddr = some toAddr ∧ strToLower toAddr = strToLower env.account ∧
      tx.value ≠ 0 ∧ tx.gasPrice = some gp ∧
      fetchOrderForAddress env fromAddr = some o ∧
      r = ⟨o.id, tx.hash, formatEther (tx.value + tx.gasLimit * gp),
        getEthereumNativeDepositUniqueId env.depositMethodId tx.hash⟩ := by
  cases hf : tx.fromAddr with
  | none => simp [creditAttempt, hf] at h
  | some fromAddr =>
    cases hb : tx.blockHash with
    | none => simp [creditAttempt, hf, hb] at h
    | some bh =>
      cases ht : tx.toAddr with
      | none => simp [creditAttempt, hf, hb, ht] at h
      | some toAddr =>
        cases hs : strToLower toAddr != strToLower env.account with
        | true => simp [creditAttempt, hf, hb, ht, hs] at h
        | false =>
          cases hv : tx.value == 0 with
          | true => simp [creditAttempt, hf, hb, ht, hs, hv] at h
          | false =>
            cases hg : tx.gasPrice with
            | none => simp [creditAttempt, hf, hb, ht, hs, hv, hg] at h
            | some gp =>
              cases ho : fetchOrderForAddress env fromAddr with
              | none => simp [creditAttempt, hf, hb, ht, hs, hv, hg, ho] at h
              | some o =>
                refine ⟨fromAddr, bh, toAddr, gp, o, rfl, rfl, rfl,
                  by simpa using hs, by simpa using hv, rfl, ho, ?_⟩
                simp only [creditAttempt, hf, hb, ht, hs, hv, hg, ho,
                  Bool.false_eq_true, if_false, nsSum_nsTimes_exact,
                  parseDec_toDecStr, Option.some.injEq] at h
                exact h.symm

/-- Inverting a successful `candidateAttempt`: the candidate resolved, is
mined, and its containing block does not predate the order. -/
theorem candidateAttempt_some (env : Env) (order : Order)
    (etx : EtherscanTx) (r : DepositRecord)
    (h : candidateAttempt env order etx = some r) :
    ∃ tx bn, env.getTransaction etx.hash = some tx ∧
      tx.blockNumber = some bn ∧
      order.createdAt ≤ (env.getBlock bn).timestamp * 1000 ∧
      creditAttempt env tx = some r := by
  cases hg : env.getTransaction etx.hash with
  | none => simp [candidateAttempt, hg] at h
  | some tx =>
    cases hbn : tx.blockNumber with
    | none => simp [candidateAttempt, hg, hbn] at h
    | some bn =>
      by_cases hts : (env.getBlock bn).timestamp * 1000 < order.createdAt
      · simp [candidateAttempt, hg, hbn, hts] at h
      · refine ⟨tx, bn, rfl, hbn, by omega, ?_⟩
        simpa [candidateAttempt, hg, hbn, hts] using h

/-- A record in the sink after a fold of offers was already present or is
one of the offered records. -/
theorem mem_foldl_applyRecord {r : DepositRecord} :
    ∀ (l records : List DepositRecord),
    r ∈ List.foldl applyRecord records l → r ∈ records ∨ r ∈ l := by
  intro l
  induction l with
  | nil => intro records h; exact Or.inl h
  | cons r0 rest ih =>
    intro records h
    rcases ih (applyRecord records r0) h with h1 | h1
    · by_cases hc : hasUniqueId records r0.uniqueId = true
      · rw [applyRecord_stable hc] at h1
        exact Or.inl h1
      · rw [Bool.not_eq_true] at hc
        rw [applyRecord_fresh hc] at h1
        rcases List.mem_append.mp h1 with h2 | h2
        · exact Or.inl h2
        · simp only [List.mem_singleton] at h2
          subst h2
          exact Or.inr (List.mem_cons_self _ _)
    · exact Or.inr (List.mem_cons_of_mem r0 h1)

/-- A record offered over a batch comes from some candidate's
`candidateAttempt`. -/
theorem mem_batchAttempts {env : Env} {order : Order} {r : DepositRecord} :
    ∀ l : List EtherscanTx, r ∈ batchAttempts env order l →
    ∃ etx, etx ∈ l ∧ candidateAttempt env order etx = some r := by
  intro l
  induction l with
  | nil => intro h; cases h
  | cons etx rest ih =>
    intro h
    cases hct : candidateThrows env order etx with
    | some msg =>
      simp only [batchAttempts, hct] at h
      cases h
    | none =>
      simp only [batchAttempts, hct] at h
      rcases List.mem_append.mp h with h1 | h1
      · cases hca : candidateAttempt env order etx with
        | none => rw [hca] at h1; cases h1
        | some r0 =>
          rw [hca] at h1
          simp only [Option.toList, List.mem_singleton] at h1
          subst h1
          exact ⟨etx, List.mem_cons_self etx rest, hca⟩
      · obtain ⟨etx1, hmem, hca⟩ := ih h1
        exact ⟨etx1, List.mem_cons_of_mem etx hmem, hca⟩

/-- A record offered over the page loop comes from some candidate's
`candidateAttempt`. -/
theorem mem_scanAttempts {env : Env} {order : Order} {address : String}
    {r : DepositRecord} :
    ∀ (fuel page : Nat), r ∈ scanAttempts env order address fuel page →
    ∃ etx, candidateAttempt env order etx = some r := by
  intro fuel
  induction fuel with
  | zero => intro page h; cases h
  | succ n ih =>
    intro page h
    cases hfp : env.fetchPage address order.createdAtBlockNumber page with
    | error e =>
      simp only [scanAttempts, hfp] at h
      cases h
    | ok txs =>
      cases txs with
      | nil =>
        simp only [scanAttempts, hfp] at h
        cases h
      | cons t ts =>
        cases hbt : batchThrows env order (pageCandidates (t :: ts)) with
        | some msg =>
          simp only [scanAttempts, hfp, hbt] at h
          obtain ⟨etx, _, hca⟩ := mem_batchAttempts _ h
          exact ⟨etx, hca⟩
        | none =>
          simp only [scanAttempts, hfp, hbt] at h
          rcases List.mem_append.mp h with h1 | h1
          · obtain ⟨etx, _, hca⟩ := mem_batchAttempts _ h1
            exact ⟨etx, hca⟩
          · exact ih (page + 1) h1

/-- Provenance of every record present after one order's scan: it was
already in the sink, or it carries full `CreditProvenance` for the scanned
order. -/
theorem runScanByOrderId_provenance (env : Env) (orderId : String)
    (eff : Eff) (fuel : Nat) :
    ∀ r ∈ (runScanByOrderId env orderId eff fuel).eff.records,
      r ∈ eff.records ∨
      ∃ order, env.orders.find? (fun o => o.id == orderId) = some order ∧
        CreditProvenance env order r := by
  intro r hr
  rw [runScanByOrderId_records] at hr
  rcases mem_foldl_applyRecord _ _ hr with h | h
  · exact Or.inl h
  · right
    cases hfo : env.orders.find? (fun o => o.id == orderId) with
    | none =>
      simp only [orderScanAttempts, hfo] at h
      cases h
    | some order =>
      cases hda : order.depositAddress with
      | none =>
        simp only [orderScanAttempts, hfo, hda] at h
        cases h
      | some address =>
        simp only [orderScanAttempts, hfo, hda] at h
        obtain ⟨etx, hca⟩ := mem_scanAttempts _ _ h
        obtain ⟨tx, bn, hgt, hbn, hts, hcr⟩ :=
          candidateAttempt_some env order etx r hca
        obtain ⟨fromAddr, bh, toAddr, gp, o, h1, h2, h3, h4, h5, h6, h7, h8⟩ :=
          creditAttempt_some env tx r hcr
        exact ⟨order, rfl, etx.hash, tx, bn, fromAddr, bh, toAddr, gp, o,
          hgt, hbn, hts, h1, h2, h3, h4, h5, h6, h7, h8⟩

/-- The source's filter-then-cap equals the spec's first-n-positive
selection. -/
theorem filter_take_eq_firstPositive :
    ∀ (txs : List EtherscanTx) (n : Nat),
    (txs.filter (fun tx => 0 < tx.value)).take n =
      firstPositiveCandidates n txs := by
  intro txs
  induction txs with
  | nil => intro n; cases n <;> rfl
  | cons tx rest ih =>
    intro n
    by_cases h : 0 < tx.value
    · cases n with
      | zero => simp [firstPositiveCandidates, List.filter_cons, h]
      | succ m =>
        simp [List.filter_cons, h, List.take_succ_cons,
          firstPositiveCandidates, ih m]
    · cases n with
      | zero => simp [firstPositiveCandidates, List.filter_cons, h]
      | succ m =>
        simp [List.filter_cons, h, firstPositiveCandidates, ih (m + 1)]

/-- A `singleTx` node is hash-consistent when the stored transaction's
hash is its key. -/
theorem singleTx_wf (key : String) (tx : EthersTx) (hk : tx.hash = key) :
    ∀ h0 tx0, singleTx key tx h0 = some tx0 → tx0.hash = h0 := by
  intro h0 tx0 h
  unfold singleTx at h
  by_cases hh : (h0 == key) = true
  · rw [if_pos hh] at h
    injection h with h2
    subst h2
    rw [hk]
    exact (eq_of_beq hh).symm
  · rw [if_neg hh] at h
    exact Option.noConfusion h

/-- A `singleTx` node satisfies the good-transaction hypothesis when their
one transaction does. -/
theorem singleTx_good (key : String) (tx : EthersTx)
    (h1 : tx.fromAddr.isSome = true) (h2 : tx.blockHash.isSome = true)
    (h3 : tx.gasPrice.isSome = true) :
    ∀ h0 tx0, singleTx key tx h0 = some tx0 →
      tx0.fromAddr.isSome = true ∧ tx0.blockHash.isSome = true ∧
      tx0.gasPrice.isSome = true := by
  intro h0 tx0 h
  unfold singleTx at h
  by_cases hh : (h0 == key) = true
  · rw [if_pos hh] at h
    injection h with h4
    subst h4
    exact ⟨h1, h2, h3⟩
  · rw [if_neg hh] at h
    exact Option.noConfusion h

/-- Re-running an order scan any positive number of times leaves the sink
exactly as after the first run. -/
theorem recordsAfterRuns_stable (env : Env) (orderId : String) (fuel : Nat) :
    ∀ n, 1 ≤ n →
    recordsAfterRuns env orderId fuel n =
      (runScanByOrderId env orderId emptyEff fuel).eff.records := by
  intro n
  induction n with
  | zero => intro h; omega
  | succ k ih =>
    intro _
    by_cases hk : 1 ≤ k
    · have ih1 := ih hk
      have hL : recordsAfterRuns env orderId fuel (k + 1) =
          List.foldl applyRecord (recordsAfterRuns env orderId fuel k)
            (orderScanAttempts env orderId fuel) := by
        show (runScanByOrderId env orderId
            ⟨recordsAfterRuns env orderId fuel k, []⟩ fuel).eff.records = _
        rw [runScanByOrderId_records]
      have hR : (runScanByOrderId env orderId emptyEff fuel).eff.records =
          List.foldl applyRecord emptyEff.records
            (orderScanAttempts env orderId fuel) := by
        rw [runScanByOrderId_records]
      rw [hL, ih1, hR, foldl_applyRecord_idem]
    · have hk0 : k = 0 := by omega
      subst hk0
      rfl

/-! ## Claims -/

/-- C1: the explorer client is claimed to return the page's summaries
whenever the HTTP request succeeds and the response body is a well-formed
transaction-list page, failing with a schema error only on malformed
bodies.  The source instead parses the whole axios response object
(`res`), not the body (`res.data`): the zod array schema can never match
the response envelope, so the call yields a schema error for every
response — including one whose body is a perfectly well-formed page that
the schema itself accepts. -/
theorem C1_explorer_parses_envelope_not_body :
    accountTxListResultSchema sampleTxListBody =
      Except.ok [⟨"0xabc", "0xdep", "0xacct", "5"⟩] ∧
    getEtherScanTxListForAddress
        (Except.ok ⟨200, "OK", sampleTxListBody⟩) =
      Except.error (ExplorerErr.schemaError "expected array") ∧
    ∀ r : AxiosResponse,
      getEtherScanTxListForAddress (Except.ok r) =
        Except.error (ExplorerErr.schemaError "expected array") :=
  ⟨rfl, rfl, fun _ => rfl⟩

/-- C7: within one fetched page, the candidates handed to verification are
the source's `filter`-positive-then-`slice(0, 10)` selection, which equals
the first ten summaries, in page order, of strictly positive value — and
never more than ten. -/
theorem C7_page_cap_first_ten_positive (txs : List EtherscanTx) :
    pageCandidates txs = firstPositiveCandidates 10 txs ∧
    (pageCandidates txs).length ≤ 10 :=
  ⟨filter_take_eq_firstPositive txs 10, List.length_take_le 10 _⟩

/-- C8: for a candidate whose resolved transaction carries a sender and a
block hash (the two `assert`ed fields, which the claim does not list), the
verification pipeline evaluates its checks in exactly the claimed fixed
order with short-circuiting: not found, pending, stale, contract creation,
not-a-sweep (case-insensitive), zero value, missing legacy gas price. -/
theorem C8_verification_check_order (env : Env) (order : Order)
    (txHash : String)
    (hgood : ∀ tx, env.getTransaction txHash = some tx →
      tx.fromAddr.isSome = true ∧ tx.blockHash.isSome = true) :
    verdictOf env order txHash = specVerdict env order txHash := by
  cases hg : env.getTransaction txHash with
  | none => simp [verdictOf, specVerdict, hg]
  | some tx =>
    obtain ⟨h1, h2⟩ := hgood tx hg
    obtain ⟨fromAddr, hf⟩ := Option.isSome_iff_exists.mp h1
    obtain ⟨bh, hb⟩ := Option.isSome_iff_exists.mp h2
    cases hbn : tx.blockNumber with
    | none => simp [verdictOf, specVerdict, hg, hbn]
    | some bn =>
      by_cases hts : (env.getBlock bn).timestamp * 1000 < order.createdAt
      · simp [verdictOf, specVerdict, hg, hbn, hts]
      · simp [verdictOf, specVerdict, hg, hbn, hts, hf, hb]

/-- Witness for C8: the check-order equivalence evaluated at a concrete
environment and candidate. -/
theorem C8_verification_check_order_witness :
    verdictOf c2wEnv ⟨"A", some "dep", "eth", 10000, 100⟩ "t1" =
      specVerdict c2wEnv ⟨"A", some "dep", "eth", 10000, 100⟩ "t1" :=
  C8_verification_check_order c2wEnv ⟨"A", some "dep", "eth", 10000, 100⟩
    "t1" (by
      intro tx h
      have h2 : tx = c2wTx := by
        have h3 := h
        simp [c2wEnv, singleTx] at h3
        exact h3.symm
      subst h2
      exact ⟨rfl, rfl⟩)

/-- C2: over a hash-consistent node, if a transaction resolves to a block
whose timestamp (in milliseconds) is strictly earlier than the scanned
order's creation timestamp, then no credit for that transaction is ever
issued during the order's scan: every record in the sink afterwards was
there before or names a different transaction. -/
theorem C2_stale_transaction_never_credited (env : Env) (orderId : String)
    (eff : Eff) (fuel : Nat) (order : Order) (h : String) (etx : EthersTx)
    (bn : Nat)
    (hwf : ∀ h0 tx, env.getTransaction h0 = some tx → tx.hash = h0)
    (hord : env.orders.find? (fun o => o.id == orderId) = some order)
    (htx : env.getTransaction h = some etx)
    (hbn : etx.blockNumber = some bn)
    (hstale : (env.getBlock bn).timestamp * 1000 < order.createdAt) :
    ∀ r ∈ (runScanByOrderId env orderId eff fuel).eff.records,
      r ∈ eff.records ∨ r.txid ≠ h := by
  intro r hr
  rcases runScanByOrderId_provenance env orderId eff fuel r hr with
    hold | ⟨order2, hord2, prov⟩
  · exact Or.inl hold
  · right
    rw [hord2] at hord
    injection hord with hord
    subst hord
    obtain ⟨ch, tx, bn2, fromAddr, bh, toAddr, gp, o, hgt, hbn2, hts, _, _,
      _, _, _, _, _, hr_eq⟩ := prov
    intro htxid
    rw [hr_eq] at htxid
    simp only at htxid
    have hch : tx.hash = ch := hwf ch tx hgt
    rw [hch] at htxid
    subst htxid
    rw [hgt] at htx
    injection htx with htx
    subst htx
    rw [hbn2] at hbn
    injection hbn with hbn
    subst hbn
    omega

/-- Witness for C2 at a concrete environment whose only candidate is
stale. -/
theorem C2_stale_transaction_never_credited_witness :
    c2wEnv.getTransaction "t1" = some c2wTx ∧
    (c2wEnv.getBlock 50).timestamp * 1000 < 10000 ∧
    (∀ r ∈ (runScanByOrderId c2wEnv "A" emptyEff 3).eff.records,
      r ∈ emptyEff.records ∨ r.txid ≠ "t1") :=
  ⟨rfl, by decide,
    C2_stale_transaction_never_credited c2wEnv "A" emptyEff 3
      ⟨"A", some "dep", "eth", 10000, 100⟩ "t1" c2wTx 50
      (singleTx_wf "t1" c2wTx rfl) (by decide) rfl rfl (by decide)⟩

/-- C5: over a hash-consistent node, every record the scan adds to the
sink names an order found in the order store for the native deposit
method whose stored deposit address equals the credited transaction's
sender (`from`) address. -/
theorem C5_credit_names_sender_order (env : Env) (orderId : String)
    (eff : Eff) (fuel : Nat)
    (hwf : ∀ h0 tx, env.getTransaction h0 = some tx → tx.hash = h0) :
    ∀ r ∈ (runScanByOrderId env orderId eff fuel).eff.records,
      r ∈ eff.records ∨
      ∃ tx sender o, env.getTransaction r.txid = some tx ∧
        tx.fromAddr = some sender ∧ o ∈ env.orders ∧
        o.depositMethod = env.depositMethodId ∧
        o.depositAddress = some sender ∧ r.orderId = o.id := by
  intro r hr
  rcases runScanByOrderId_provenance env orderId eff fuel r hr with
    hold | ⟨order2, _, prov⟩
  · exact Or.inl hold
  · right
    obtain ⟨ch, tx, bn, fromAddr, bh, toAddr, gp, o, hgt, _, _, hfrom, _, _,
      _, _, _, hfo, hr_eq⟩ := prov
    have hch : tx.hash = ch := hwf ch tx hgt
    unfold fetchOrderForAddress at hfo
    have hmem : o ∈ env.orders := List.mem_of_find?_eq_some hfo
    have hpred := List.find?_some hfo
    rw [Bool.and_eq_true] at hpred
    obtain ⟨hmethod, haddress⟩ := hpred
    refine ⟨tx, fromAddr, o, ?_, hfrom, hmem, ?_, ?_, ?_⟩
    · rw [hr_eq]
      simp only
      rw [hch]
      exact hgt
    · exact eq_of_beq hmethod
    · exact eq_of_beq haddress
    · rw [hr_eq]

/-- Witness for C5 at a concrete environment in which a credit is
issued. -/
theorem C5_credit_names_sender_order_witness :
    c5wEnv.getTransaction "t1" = some c5wTx ∧
    (∀ r ∈ (runScanByOrderId c5wEnv "A" emptyEff 3).eff.records,
      r ∈ emptyEff.records ∨
      ∃ tx sender o, c5wEnv.getTransaction r.txid = some tx ∧
        tx.fromAddr = some sender ∧ o ∈ c5wEnv.orders ∧
        o.depositMethod = c5wEnv.depositMethodId ∧
        o.depositAddress = some sender ∧ r.orderId = o.id) :=
  ⟨rfl,
    C5_credit_names_sender_order c5wEnv "A" emptyEff 3
      (singleTx_wf "t1" c5wTx rfl)⟩

/-- C3: with the Credit Sink's at-most-one-application-per-dedup-key
contract (modelled from the spec in `maybeInternalCreateDeposit`),
re-running the same order scan any positive number of times over an
unchanged environment leaves the sink exactly as after a single run, and
the sink never holds two records under one dedup key. -/
theorem C3_rescan_idempotent (env : Env) (orderId : String) (fuel n : Nat)
    (hn : 1 ≤ n) :
    recordsAfterRuns env orderId fuel n =
      (runScanByOrderId env orderId emptyEff fuel).eff.records ∧
    (((runScanByOrderId env orderId emptyEff fuel).eff.records).map
      (fun r => r.uniqueId)).Nodup := by
  refine ⟨recordsAfterRuns_stable env orderId fuel n hn, ?_⟩
  rw [runScanByOrderId_records]
  exact nodup_foldl_applyRecord _ emptyEff.records (by simp [emptyEff])

/-- Witness for C3: two runs at a concrete environment (in which a credit
is issued) equal one run, with distinct dedup keys. -/
theorem C3_rescan_idempotent_witness :
    recordsAfterRuns c5wEnv "A" 3 2 =
      (runScanByOrderId c5wEnv "A" emptyEff 3).eff.records ∧
    (((runScanByOrderId c5wEnv "A" emptyEff 3).eff.records).map
      (fun r => r.uniqueId)).Nodup :=
  C3_rescan_idempotent c5wEnv "A" 3 2 (by decide)

/-- C4 (amended): fetch/schema errors and a missing order or deposit
address are logged and absorbed inside the per-order unit of work, and
when every transaction the node returns carries a sender, a block hash
and a legacy gas price, no failure whatsoever escapes the order-scan
boundary; the hard throws of `scanTxid` (in particular the missing legacy
gas price) are the only escapes. -/
theorem C4_no_escape_with_legacy_gas (env : Env) (orderId : String)
    (eff : Eff) (fuel : Nat) (msg : String)
    (hgood : ∀ h tx, env.getTransaction h = some tx →
      tx.fromAddr.isSome = true ∧ tx.blockHash.isSome = true ∧
      tx.gasPrice.isSome = true) :
    (runScanByOrderId env orderId eff fuel).outcome ≠ Outcome.errored msg :=
  runScanByOrderId_no_error env orderId eff fuel msg hgood

/-- Witness for C4 at a concrete environment whose one candidate carries
a legacy gas price. -/
theorem C4_no_escape_with_legacy_gas_witness :
    (runScanByOrderId c4wEnv "A" emptyEff 3).outcome ≠
      Outcome.errored "Unsupported EIP-1559 sweep transaction" :=
  C4_no_escape_with_legacy_gas c4wEnv "A" emptyEff 3
    "Unsupported EIP-1559 sweep transaction"
    (singleTx_good "t1" c4wTx rfl rfl rfl)

/-- Counterexample to C4 as stated: in `c4Env` the only candidate lacks a
legacy gas price; its `Unsupported EIP-1559 sweep transaction` throw is
not caught anywhere in the per-order callback, so the scan ends `errored`
— the failure escapes the order-scan boundary instead of being surfaced
through logging only. -/
theorem C4_hard_failure_escapes_counterexample :
    (runScanByOrderId c4Env "A" emptyEff 3).outcome =
      Outcome.errored "Unsupported EIP-1559 sweep transaction" ∧
    (runScanByOrderId c4Env "A" emptyEff 3).eff.records = [] := by
  constructor
  · decide
  · decide

/-- C6 (amended): provided every needed page fetch succeeds and no
processed candidate throws a hard failure, the page loop ends `Exhausted`
exactly at the first empty page `m`, having fetched pages `1, …, m`
strictly sequentially in increasing order; under these hypotheses a
non-empty page never ends the scan. -/
theorem C6_pagination_exhausts_at_first_empty_page (env : Env)
    (orderId : String) (eff : Eff) (fuel : Nat) (order : Order)
    (address : String) (m : Nat)
    (hord : env.orders.find? (fun o => o.id == orderId) = some order)
    (hda : order.depositAddress = some address)
    (hne : ∀ q, 1 ≤ q → q < m → ∃ t ts,
      env.fetchPage address order.createdAtBlockNumber q =
        Except.ok (t :: ts) ∧
      batchThrows env order (pageCandidates (t :: ts)) = none)
    (hm : env.fetchPage address order.createdAtBlockNumber m = Except.ok [])
    (hm1 : 1 ≤ m) (hfuel : m ≤ fuel) :
    (runScanByOrderId env orderId eff fuel).outcome = Outcome.exhausted ∧
    (runScanByOrderId env orderId eff fuel).pages = List.range' 1 m := by
  have hmain := scanPages_exhausts env order address m hne hm fuel 1
    (Eff.log eff (LogEvent.processingTask orderId)) (by omega) hm1 (by omega)
  have hrw : m + 1 - 1 = m := by omega
  rw [hrw] at hmain
  constructor
  · simp only [runScanByOrderId, hord, hda]
    exact hmain.1
  · simp only [runScanByOrderId, hord, hda]
    exact hmain.2

/-- Witness for C6: a concrete environment whose page 1 is non-empty and
benign and whose page 2 is empty ends `Exhausted` after fetching pages
`[1, 2]`. -/
theorem C6_pagination_exhausts_witness :
    (runScanByOrderId c6wEnv "A" emptyEff 3).outcome = Outcome.exhausted ∧
    (runScanByOrderId c6wEnv "A" emptyEff 3).pages = List.range' 1 2 :=
  C6_pagination_exhausts_at_first_empty_page c6wEnv "A" emptyEff 3
    ⟨"A", some "dep", "eth", 0, 100⟩ "dep" 2 (by decide) rfl
    (by
      intro q h1 h2
      have hq : q = 1 := by omega
      subst hq
      exact ⟨⟨"t1", "src", "acct", 5⟩, [], rfl, by decide⟩)
    rfl (by decide) (by decide)

/-- Counterexample to C6 as stated: in `c6Env` every page fetch succeeds
(its fetch function returns a non-empty page 1 and empty pages
otherwise), yet the scan ends on non-empty page 1, because the EIP-1559
candidate's hard failure aborts the loop. -/
theorem C6_nonempty_page_ends_scan_counterexample :
    c6Env.fetchPage = (fun _ _ page =>
      if page == 1 then Except.ok [⟨"t1", "src", "acct", 5⟩]
      else Except.ok []) ∧
    c6Env.fetchPage "dep" 100 1 = Except.ok [⟨"t1", "src", "acct", 5⟩] ∧
    (runScanByOrderId c6Env "A" emptyEff 3).outcome =
      Outcome.errored "Unsupported EIP-1559 sweep transaction" ∧
    (runScanByOrderId c6Env "A" emptyEff 3).pages = [1] := by
  refine ⟨rfl, rfl, ?_, ?_⟩
  · decide
  · decide

/-- A record in the sink after one offer was already present or is the
offered record. -/
theorem mem_applyRecord {records : List DepositRecord}
    {a r : DepositRecord} (h : r ∈ applyRecord records a) :
    r ∈ records ∨ r = a := by
  by_cases hc : hasUniqueId records a.uniqueId = true
  · rw [applyRecord_stable hc] at h
    exact Or.inl h
  · rw [Bool.not_eq_true] at hc
    rw [applyRecord_fresh hc] at h
    rcases List.mem_append.mp h with h1 | h1
    · exact Or.inl h1
    · simp only [List.mem_singleton] at h1
      exact Or.inr h1

/-- C9: for a transaction that passes every eligibility check, the record
offered to the credit call carries the amount
`value + gasLimit × gasPrice` — computed exactly over the decimal
numerals by the `ns` wrapper — converted from wei to ether by
`formatEther`; and `scanTxid`'s whole record effect is that one offer.
Not the raw transfer value alone. -/
theorem C9_credited_amount_includes_gas (env : Env) (eff : Eff)
    (tx : EthersTx) (fromAddr bh toAddr : String) (gp : Nat) (o : Order)
    (hfrom : tx.fromAddr = some fromAddr)
    (hbh : tx.blockHash = some bh)
    (hto : tx.toAddr = some toAddr)
    (hsweep : strToLower toAddr = strToLower env.account)
    (hval : tx.value ≠ 0)
    (hgp : tx.gasPrice = some gp)
    (hord : fetchOrderForAddress env fromAddr = some o) :
    creditAttempt env tx = some
      ⟨o.id, tx.hash, formatEther (tx.value + tx.gasLimit * gp),
        getEthereumNativeDepositUniqueId env.depositMethodId tx.hash⟩ ∧
    ∀ eff2 b, scanTxid env eff tx = Except.ok (eff2, b) →
      eff2.records = applyRecord eff.records
        ⟨o.id, tx.hash, formatEther (tx.value + tx.gasLimit * gp),
          getEthereumNativeDepositUniqueId env.depositMethodId tx.hash⟩ := by
  have hs : (strToLower toAddr != strToLower env.account) = false := by
    simp [hsweep]
  have hv : (tx.value == 0) = false := by
    simpa using hval
  have hca : creditAttempt env tx = some
      ⟨o.id, tx.hash, formatEther (tx.value + tx.gasLimit * gp),
        getEthereumNativeDepositUniqueId env.depositMethodId tx.hash⟩ := by
    simp [creditAttempt, hfrom, hbh, hto, hs, hv, hgp, hord,
      nsSum_nsTimes_exact, parseDec_toDecStr]
  refine ⟨hca, ?_⟩
  intro eff2 b hok
  have hth : scanTxidThrows env tx = none :=
    scanTxidThrows_none env tx (by simp [hfrom]) (by simp [hbh])
      (by simp [hgp])
  rw [scanTxid_characterization, hth, hca] at hok
  simp only at hok
  cases hm : maybeInternalCreateDeposit eff.records
      ⟨o.id, tx.hash, formatEther (tx.value + tx.gasLimit * gp),
        getEthereumNativeDepositUniqueId env.depositMethodId tx.hash⟩ with
  | mk wasCredited records1 =>
    rw [hm] at hok
    have happ : applyRecord eff.records
        ⟨o.id, tx.hash, formatEther (tx.value + tx.gasLimit * gp),
          getEthereumNativeDepositUniqueId env.depositMethodId tx.hash⟩ =
        records1 := by
      rw [applyRecord, hm]
    cases wasCredited with
    | false =>
      injection hok with hok2
      injection hok2 with ha hb2
      rw [← ha]
      exact happ.symm
    | true =>
      injection hok with hok2
      injection hok2 with ha hb2
      rw [← ha]
      simp only [Eff.log]
      exact happ.symm

/-- Witness for C9 at a concrete qualifying transaction: 5 wei value, gas
limit 3, gas price 2, so 11 wei total. -/
theorem C9_credited_amount_includes_gas_witness :
    creditAttempt c5wEnv c5wTx = some
      ⟨"A", "t1", formatEther (5 + 3 * 2),
        getEthereumNativeDepositUniqueId "eth" "t1"⟩ ∧
    ∀ eff2 b, scanTxid c5wEnv emptyEff c5wTx = Except.ok (eff2, b) →
      eff2.records = applyRecord emptyEff.records
        ⟨"A", "t1", formatEther (5 + 3 * 2),
          getEthereumNativeDepositUniqueId "eth" "t1"⟩ :=
  C9_credited_amount_includes_gas c5wEnv emptyEff c5wTx "dep" "b1" "acct" 2
    ⟨"A", some "dep", "eth", 1000, 100⟩ rfl rfl rfl rfl (by decide) rfl
    (by decide)

/-- C10: at credit time the order is re-looked-up from the order store by
the resolved transaction's sender address — `scanTxid` receives no scanned
order at all, so the credited order is independent of the order id the
scan was invoked for.  When no order with that deposit address exists for
the native method, the candidate is silently skipped: `scanTxid` returns
`false` with effects unchanged (no credit, no error, no log).  When one
exists, every record the call adds names exactly that order. -/
theorem C10_credit_order_by_sender_lookup (env : Env) (eff : Eff)
    (tx : EthersTx) (fromAddr bh toAddr : String) (gp : Nat)
    (hfrom : tx.fromAddr = some fromAddr)
    (hbh : tx.blockHash = some bh)
    (hto : tx.toAddr = some toAddr)
    (hsweep : strToLower toAddr = strToLower env.account)
    (hval : tx.value ≠ 0)
    (hgp : tx.gasPrice = some gp) :
    (fetchOrderForAddress env fromAddr = none →
      scanTxid env eff tx = Except.ok (eff, false)) ∧
    ∀ o, fetchOrderForAddress env fromAddr = some o →
      ∀ eff2 b, scanTxid env eff tx = Except.ok (eff2, b) →
      ∀ r ∈ eff2.records, r ∈ eff.records ∨ r.orderId = o.id := by
  have hs : (strToLower toAddr != strToLower env.account) = false := by
    simp [hsweep]
  have hv : (tx.value == 0) = false := by
    simpa using hval
  constructor
  · intro ho
    simp [scanTxid, hfrom, hbh, hto, hs, hv, hgp, ho]
  · intro o ho eff2 b hok r hr
    have hth : scanTxidThrows env tx = none :=
      scanTxidThrows_none env tx (by simp [hfrom]) (by simp [hbh])
        (by simp [hgp])
    have hca : creditAttempt env tx = some
        ⟨o.id, tx.hash, formatEther (tx.value + tx.gasLimit * gp),
          getEthereumNativeDepositUniqueId env.depositMethodId tx.hash⟩ := by
      simp [creditAttempt, hfrom, hbh, hto, hs, hv, hgp, ho,
        nsSum_nsTimes_exact, parseDec_toDecStr]
    rw [scanTxid_characterization, hth, hca] at hok
    simp only at hok
    cases hm : maybeInternalCreateDeposit eff.records
        ⟨o.id, tx.hash, formatEther (tx.value + tx.gasLimit * gp),
          getEthereumNativeDepositUniqueId env.depositMethodId tx.hash⟩ with
    | mk wasCredited records1 =>
      rw [hm] at hok
      have happ : applyRecord eff.records
          ⟨o.id, tx.hash, formatEther (tx.value + tx.gasLimit * gp),
            getEthereumNativeDepositUniqueId env.depositMethodId tx.hash⟩ =
          records1 := by
        rw [applyRecord, hm]
      cases wasCredited with
      | false =>
        injection hok with hok2
        injection hok2 with ha hb2
        rw [← ha] at hr
        simp only at hr
        rw [← happ] at hr
        rcases mem_applyRecord hr with h1 | h1
        · exact Or.inl h1
        · subst h1
          exact Or.inr rfl
      | true =>
        injection hok with hok2
        injection hok2 with ha hb2
        rw [← ha] at hr
        simp only [Eff.log] at hr
        rw [← happ] at hr
        rcases mem_applyRecord hr with h1 | h1
        · exact Or.inl h1
        · subst h1
          exact Or.inr rfl

/-- Witness for C10 at a concrete candidate whose sender has no order
(`c4wEnv` has no order with deposit address `src`). -/
theorem C10_credit_order_by_sender_lookup_witness :
    (fetchOrderForAddress c4wEnv "src" = none →
      scanTxid c4wEnv emptyEff c4wTx = Except.ok (emptyEff, false)) ∧
    ∀ o, fetchOrderForAddress c4wEnv "src" = some o →
      ∀ eff2 b, scanTxid c4wEnv emptyEff c4wTx = Except.ok (eff2, b) →
      ∀ r ∈ eff2.records, r ∈ emptyEff.records ∨ r.orderId = o.id :=
  C10_credit_order_by_sender_lookup c4wEnv emptyEff c4wTx "src" "b1" "acct"
    2 rfl rfl rfl rfl (by decide) rfl

end EthereumWorker
